import Mathlib

/-!
Verification of the TSM-WoWheadScraper core against its specification.

Python strings are modelled as `List Char`; the TSM SavedVariables file is
modelled by its logical content (group paths and item entries), group paths
as lists of segments.  GUI-side logic is transcribed from `gui_modern.py`;
the parser/writer engine (`tsm_scraper.lua_parser`, `tsm_scraper.lua_writer`)
is not part of the sources and is modelled from the spec where needed.
-/

namespace TSM

/-- The reserved group-path delimiter character (backtick, code point 96). -/
def delim : Char := Char.ofNat 96

/-- Python `str.lower` restricted to ASCII letters, character-wise. -/
def pyLowerChar (c : Char) : Char :=
  if 'A' ≤ c ∧ c ≤ 'Z' then Char.ofNat (c.toNat + 32) else c

/-- Python `str.lower` on a whole string. -/
def pyLower (s : List Char) : List Char := s.map pyLowerChar

/-- Python string comparison `s <= t`: lexicographic by code point. -/
def strLe : List Char → List Char → Bool
  | [], _ => true
  | _ :: _, [] => false
  | a :: as, b :: bs =>
    if a.toNat < b.toNat then true
    else if b.toNat < a.toNat then false
    else strLe as bs

/-- The key order used by the groups panel: compare lowercased strings
(`sorted(children, key=lambda x: x.lower())`, gui_modern.py lines 1959/1964). -/
def lowerLe (a b : List Char) : Prop := strLe (pyLower a) (pyLower b) = true

instance : DecidableRel lowerLe := fun a b => by
  unfold lowerLe; infer_instance

/-- Python `'\x60'.join` over a list of segments. -/
def renderPath : List (List Char) → List Char
  | [] => []
  | [s] => s
  | s :: rest => s ++ delim :: renderPath rest

/-- Python `str.split(c)`: split at every occurrence of `c`, keeping empties. -/
def pySplitOn (d : Char) : List Char → List (List Char)
  | [] => [[]]
  | c :: rest =>
    match pySplitOn d rest with
    | [] => [[]]
    | t :: ts => if c = d then [] :: t :: ts else (c :: t) :: ts

/-- The file's logical content: the set of group paths (each a list of
segments) and the item entries, each holding its owning group path and its
numeric id. -/
structure TSMData where
  groups : List (List (List Char))
  items : List (List (List Char) × Nat)
  deriving DecidableEq, Repr

/-- Whether some item entry carries the given numeric id. -/
def hasItemId (st : TSMData) (i : Nat) : Bool :=
  st.items.any (fun e => e.2 == i)

/-- Delete every item entry carrying the given id, in every group. -/
def removeItemId (st : TSMData) (i : Nat) : TSMData :=
  { st with items := st.items.filter (fun e => e.2 != i) }

/-- Modelled from the spec: `remove_items(id list, dry_run)` of the writer
(`tsm_scraper/lua_writer.py`, absent from the sources).  For each id, search
all groups' member listings (both key variants reduce to the numeric id);
delete every matching entry, counted once per id; an id matching none of the
existing entries increments `not_found`.  Returns (state, removed, not_found). -/
def remove_items : TSMData → List Nat → TSMData × Nat × Nat
  | st, [] => (st, 0, 0)
  | st, i :: rest =>
    if hasItemId st i then
      let r := remove_items (removeItemId st i) rest
      (r.1, r.2.1 + 1, r.2.2)
    else
      let r := remove_items st rest
      (r.1, r.2.1, r.2.2 + 1)

/-- Modelled from the spec: `add_groups(path list, dry_run)` of the writer
(absent from the sources).  Creates only the exact paths given; paths already
present are skipped, not duplicated.  Returns (state, added, skipped). -/
def add_groups : TSMData → List (List (List Char)) → TSMData × Nat × Nat
  | st, [] => (st, 0, 0)
  | st, p :: rest =>
    if p ∈ st.groups then
      let r := add_groups st rest
      (r.1, r.2.1, r.2.2 + 1)
    else
      let r := add_groups { st with groups := st.groups ++ [p] } rest
      (r.1, r.2.1 + 1, r.2.2)

/-- Modelled from the spec: how `rename_group` rewrites one group-path entry:
entries equal to `old` or having `old` as a segment-aligned proper
prefix get that prefix replaced by `new`, the remaining suffix segments kept
exactly; every other entry is untouched. -/
def renamePathEntry (old new p : List (List Char)) : List (List Char) :=
  if old.isPrefixOf p then new ++ p.drop old.length else p

/-- Modelled from the spec: `rename_group(old_path, new_path)` of the writer
(absent from the sources).  Rewrites the group's own entry and every
segment-aligned descendant, in the groups section and in the items' owning
groups; returns (state, groups_updated). -/
def rename_group (st : TSMData) (old new : List (List Char)) : TSMData × Nat :=
  ({ groups := st.groups.map (renamePathEntry old new),
     items := st.items.map (fun e => (renamePathEntry old new e.1, e.2)) },
   (st.groups.filter (fun g => old.isPrefixOf g)).length)

/-- Modelled from the spec: `add_items(id -> target group mapping, dry_run)`
of the writer (absent from the sources).  Ids already present are skipped;
new ids are inserted into the target group, the group entry being created if
the path does not yet exist.  Returns (state, added, skipped). -/
def add_items : TSMData → List (Nat × List (List Char)) → TSMData × Nat × Nat
  | st, [] => (st, 0, 0)
  | st, (i, g) :: rest =>
    if hasItemId st i then
      let r := add_items st rest
      (r.1, r.2.1, r.2.2 + 1)
    else
      let st1 : TSMData :=
        { groups := if g ∈ st.groups then st.groups else st.groups ++ [g],
          items := st.items ++ [(g, i)] }
      let r := add_items st1 rest
      (r.1, r.2.1 + 1, r.2.2)

/-- Modelled from the spec: `delete_group(path, delete_items)` of the writer
(absent from the sources).  Removes `path` and every segment-aligned
descendant; items of removed groups are deleted when `deleteItems` is true,
otherwise detached (owning path cleared).  Returns
(state, subgroups_removed, items_removed). -/
def delete_group (st : TSMData) (p : List (List Char)) (deleteItems : Bool) :
    TSMData × Nat × Nat :=
  let hit : List (List Char) → Bool := fun g => p.isPrefixOf g
  let groups1 := st.groups.filter (fun g => !hit g)
  let doomed := (st.groups.filter hit).length
  if deleteItems then
    let items1 := st.items.filter (fun e => !hit e.1)
    (⟨groups1, items1⟩, doomed, st.items.length - items1.length)
  else
    (⟨groups1, st.items.map (fun e => if hit e.1 then ([], e.2) else e)⟩, doomed, 0)

/-- The five mutating writer calls, with their arguments and dry-run flags
as the GUI passes them. -/
inductive WriterCall where
  | addItemsC (m : List (Nat × List (List Char))) (dryRun : Bool)
  | removeItemsC (ids : List Nat) (dryRun : Bool)
  | addGroupsC (ps : List (List (List Char))) (dryRun : Bool)
  | renameGroupC (old new : List (List Char))
  | deleteGroupC (p : List (List Char)) (deleteItems : Bool)
  deriving DecidableEq, Repr

/-- The edited state a writer call's `EditPlan` produces when applied to the
current file content. -/
def applyCall : WriterCall → TSMData → TSMData
  | .addItemsC m _, st => (add_items st m).1
  | .removeItemsC ids _, st => (remove_items st ids).1
  | .addGroupsC ps _, st => (add_groups st ps).1
  | .renameGroupC o n, st => (rename_group st o n).1
  | .deleteGroupC p di, st => (delete_group st p di).1

/-- Whether a call was requested as a dry run (computes counts, writes
nothing). -/
def isDryRun : WriterCall → Bool
  | .addItemsC _ d => d
  | .removeItemsC _ d => d
  | .addGroupsC _ d => d
  | _ => false

/-- The on-disk state: the target file's content and the timestamped backup
copies living in the same directory. -/
structure Disk where
  file : TSMData
  backups : List (Nat × TSMData)
  deriving DecidableEq, Repr

/-- Modelled from the spec: the `VALIDATED -> COMMITTED` step of the writer
(absent from the sources).  A commit first writes a timestamped backup copy
of the pre-edit file, then replaces the original with the edited text; if
validation failed, or the backup write fails, the commit aborts with zero
writes to the original.  Returns (disk, committed?). -/
def commitEdit (d : Disk) (edited : TSMData) (ts : Nat)
    (validOk backupOk : Bool) : Disk × Bool :=
  if !validOk then (d, false)
  else if !backupOk then (d, false)
  else (⟨edited, (ts, d.file) :: d.backups⟩, true)

/-- Modelled from the spec: one full writer call
(`UNLOADED -> LOADED -> EDITING -> VALIDATED -> COMMITTED/ABORTED`): re-read
the file, compute the edit plan in memory, then commit unless the call is a
dry run.  `validOk` and `backupOk` stand for the validation check and the
backup write succeeding. -/
def runWriterCall (c : WriterCall) (d : Disk) (ts : Nat)
    (validOk backupOk : Bool) : Disk × Bool :=
  if isDryRun c then (d, true)
  else commitEdit d (applyCall c d.file) ts validOk backupOk

/-! GUI read paths, transcribed from `gui_modern.py` as traces of the
parser-facing events each function performs. -/

/-- The observable file-touching events a GUI code path performs. -/
inductive GuiEv where
  | loadCall
  | parseItemsCall
  | parseGroupsCall
  | showError
  | commitFile (newContent : TSMData)
  deriving DecidableEq, Repr

/-- `load_tsm_info` (gui_modern.py lines 2836-2865): load; on success parse
items and groups; on failure configure the error label and log an error. -/
def loadTsmInfoTrace (loadOk : Bool) : List GuiEv :=
  if loadOk then [.loadCall, .parseItemsCall, .parseGroupsCall]
  else [.loadCall, .showError]

/-- `_do_refresh_groups_panel` (lines 1795-1977): load; on failure show the
"Load TSM file first" label and return; on success parse items and groups. -/
def doRefreshGroupsPanelTrace (loadOk : Bool) : List GuiEv :=
  if loadOk then [.loadCall, .parseItemsCall, .parseGroupsCall]
  else [.loadCall, .showError]

/-- The read prologue of `run_scrape` (lines 2929-2934): load; on success
parse items and refresh the cached existing-id set; on failure fall through
silently. -/
def runScrapeLoadTrace (loadOk : Bool) : List GuiEv :=
  if loadOk then [.loadCall, .parseItemsCall] else [.loadCall]

/-- `get_user_groups_list` (lines 2401-2410): load; on failure return the
empty list; on success parse groups and return them sorted. -/
def getUserGroupsListTrace (loadOk : Bool) : List GuiEv :=
  if loadOk then [.loadCall, .parseGroupsCall] else [.loadCall]

/-- Effect of one event on the target file: parser calls and error display
never write; only a writer commit replaces the content. -/
def applyEv (f : TSMData) : GuiEv → TSMData
  | .commitFile n => n
  | _ => f

/-- Run a trace of events over the target file. -/
def runEvents (f : TSMData) : List GuiEv → TSMData
  | [] => f
  | e :: es => runEvents (applyEv f e) es

/-! The dedup step of `run_scrape` (lines 2929-2990). -/

/-- The existing-id set `run_scrape` uses: refreshed from the fresh
load+parse when `parser.load()` succeeded, otherwise the previously cached
set is kept (lines 2931-2934). -/
def scrapeExistingIds (loadOk : Bool) (freshIds staleIds : List Nat) : List Nat :=
  if loadOk then freshIds else staleIds

/-- `new_ids = [i for i in item_ids if i not in self.existing_ids]`
(line 2984). -/
def scrapeNewIds (existing itemIds : List Nat) : List Nat :=
  itemIds.filter (fun i => !existing.contains i)

/-- One scraped category's recorded result (lines 2986-2990): target group,
found count and the deduplicated `new_ids`. -/
def scrapeResults (existing : List Nat) (cats : List (List Char × List Nat)) :
    List (List Char × Nat × List Nat) :=
  cats.map (fun c => (c.1, c.2.length, scrapeNewIds existing c.2))

/-! Manual item-id list management (`add_manual_id` lines 2478-2508,
`paste_id_list` lines 2568-2603). -/

/-- Python whitespace characters recognized by `str.strip` and `\s`. -/
def isSpaceChar (c : Char) : Bool :=
  c = ' ' || c = Char.ofNat 9 || c = Char.ofNat 10 || c = Char.ofNat 13 ||
  c = Char.ofNat 11 || c = Char.ofNat 12

/-- Python `str.strip()`. -/
def pyStrip (l : List Char) : List Char :=
  ((l.dropWhile isSpaceChar).reverse.dropWhile isSpaceChar).reverse

/-- Decimal digits. -/
def isDigitChar (c : Char) : Bool := '0' ≤ c ∧ c ≤ '9'

/-- Digit-group well-formedness for Python `int()`: nonempty, starts and
ends with a digit, only digits and single underscores in between. -/
def okDigits : List Char → Bool
  | [] => false
  | [c] => isDigitChar c
  | c :: d :: rest =>
    isDigitChar c && (if d = '_' then
      (match rest with
       | [] => false
       | r :: rs => isDigitChar r && okDigits (r :: rs))
      else okDigits (d :: rest))

/-- Numeric value of a digit string, underscores removed. -/
def digitsToNat (l : List Char) : Nat :=
  (l.filter (fun c => c ≠ '_')).foldl (fun n c => 10 * n + (c.toNat - 48)) 0

/-- Model of Python `int(s)` on a string: optional surrounding whitespace,
optional sign, then an underscore-grouped digit run; anything else raises
`ValueError`, modelled as `none`. -/
def pyParseInt (s : List Char) : Option Int :=
  match pyStrip s with
  | '+' :: rest => if okDigits rest then some (digitsToNat rest) else none
  | '-' :: rest => if okDigits rest then some (-(digitsToNat rest : Int)) else none
  | rest => if okDigits rest then some (digitsToNat rest) else none

/-- The two manual id lists kept by the GUI. -/
structure ManualState where
  addIds : List Int
  removeIds : List Int
  deriving DecidableEq, Repr

/-- Outcome of `add_manual_id` for logging purposes. -/
inductive ManualLog where
  | invalidIdError
  | appended
  | alreadyPresent
  | emptyInput
  deriving DecidableEq, Repr

/-- `add_manual_id` (lines 2478-2508): strip the entry text; empty input
changes nothing; a failed `int()` parse logs an error and changes nothing;
otherwise the id is appended to the mode's list only when not already in it. -/
def add_manual_id (st : ManualState) (removeMode : Bool) (txt : List Char) :
    ManualState × ManualLog :=
  if pyStrip txt = [] then (st, .emptyInput)
  else
    match pyParseInt (pyStrip txt) with
    | none => (st, .invalidIdError)
    | some n =>
      if removeMode then
        if n ∈ st.removeIds then (st, .alreadyPresent)
        else ({ st with removeIds := st.removeIds ++ [n] }, .appended)
      else
        if n ∈ st.addIds then (st, .alreadyPresent)
        else ({ st with addIds := st.addIds ++ [n] }, .appended)

/-- Split a string at every character satisfying `p`, keeping empty tokens
(the caller skips them, matching `re.split` over separator runs). -/
def splitAny (p : Char → Bool) : List Char → List (List Char)
  | [] => [[]]
  | c :: rest =>
    match splitAny p rest with
    | [] => [[]]
    | t :: ts => if p c then [] :: t :: ts else (c :: t) :: ts

/-- The separator class of `re.split(r'[,\s\n]+', ...)`. -/
def isSepChar (c : Char) : Bool := c = ',' || isSpaceChar c

/-- One loop iteration of `paste_id_list` (lines 2584-2599): empty tokens
and tokens failing `int()` are skipped; parsed ids are appended to the
mode's list only when not already in it. -/
def pasteStep (removeMode : Bool) (st : ManualState) (tok : List Char) :
    ManualState :=
  if pyStrip tok = [] then st
  else
    match pyParseInt (pyStrip tok) with
    | none => st
    | some n =>
      if removeMode then
        if n ∈ st.removeIds then st
        else { st with removeIds := st.removeIds ++ [n] }
      else
        if n ∈ st.addIds then st
        else { st with addIds := st.addIds ++ [n] }

/-- `paste_id_list` (lines 2568-2603): split the pasted text on commas and
whitespace and process every token. -/
def paste_id_list (st : ManualState) (removeMode : Bool) (txt : List Char) :
    ManualState :=
  (splitAny isSepChar (pyStrip txt)).foldl (pasteStep removeMode) st

/-! `save_config` (lines 345-358). -/

/-- The profiles list `save_config` persists: a non-empty current path not
already listed is inserted at the front, then the list is truncated to 5. -/
def save_config_profiles (profiles : List String) (tsmPath : String) :
    List String :=
  let ps := if tsmPath ≠ "" ∧ tsmPath ∉ profiles then tsmPath :: profiles
            else profiles
  ps.take 5

/-! The rename dialog's path construction (`rename_group_dialog`,
lines 2119-2137). -/

/-- How `rename_group_dialog` builds the new path from the old one and the
entered name: split on the delimiter; with more than one segment, rejoin all
but the last and append the delimiter and the new name, else the new name
alone. -/
def buildRenamePath (groupPath : List Char) (newName : List Char) : List Char :=
  if (pySplitOn delim groupPath).length > 1 then
    renderPath (pySplitOn delim groupPath).dropLast ++ delim :: newName
  else newName

/-- The code's sibling ordering (lines 1959 and 1964):
`sorted(children, key=lambda x: x.lower())`, modelled as a sort by the
lowercased-string order on the full path strings. -/
def sortChildren (children : List (List Char)) : List (List Char) :=
  List.insertionSort lowerLe children

/-- The displayed name of a group row: `parts = group_path.split(delim);
display_name = parts[-1]` (lines 1833-1834). -/
def lastSegment (l : List Char) : Option (List Char) :=
  (pySplitOn delim l).getLast?

/-- A trace belonging to one of the four GUI read paths. -/
def isReadTrace (t : List GuiEv) : Prop :=
  ∃ b, t = loadTsmInfoTrace b ∨ t = doRefreshGroupsPanelTrace b ∨
    t = runScrapeLoadTrace b ∨ t = getUserGroupsListTrace b

/-! Helper lemmas. -/

theorem runEvents_append (f : TSMData) (a b : List GuiEv) :
    runEvents f (a ++ b) = runEvents (runEvents f a) b := by
  induction a generalizing f with
  | nil => rfl
  | cons e es ih =>
    simp only [List.cons_append, runEvents]
    exact ih (applyEv f e)

theorem readTrace_id (t : List GuiEv) (h : isReadTrace t) (f : TSMData) :
    runEvents f t = f := by
  obtain ⟨b, hb⟩ := h
  cases b <;>
    rcases hb with h1 | h1 | h1 | h1 <;>
      subst h1 <;>
        simp [loadTsmInfoTrace, doRefreshGroupsPanelTrace, runScrapeLoadTrace,
          getUserGroupsListTrace, runEvents, applyEv]

theorem nodup_append_one {α : Type} {l : List α} {a : α}
    (h : l.Nodup) (ha : a ∉ l) : (l ++ [a]).Nodup := by
  simp [List.nodup_append, h, ha]

theorem isPrefixOf_append_self {α : Type} [DecidableEq α] (a b : List α) :
    a.isPrefixOf (a ++ b) = true := by
  induction a with
  | nil => simp [List.isPrefixOf]
  | cons x xs ih => simp [List.isPrefixOf, ih]

/-! C10 -/

/-- C10: after every `save_config`, the persisted profiles list holds at
most 5 entries, and a non-empty current path absent from the list is
inserted at the front before truncation to 5. -/
theorem save_config_profiles_spec (profiles : List String) (tsmPath : String) :
    (save_config_profiles profiles tsmPath).length ≤ 5 ∧
    (tsmPath ≠ "" → tsmPath ∉ profiles →
      save_config_profiles profiles tsmPath = (tsmPath :: profiles).take 5) := by
  constructor
  · unfold save_config_profiles
    split <;> simp [List.length_take]
  · intro h1 h2
    simp [save_config_profiles, h1, h2]

theorem save_config_profiles_spec_witness :
    (save_config_profiles ["a", "b", "c", "d", "e", "f"] "p").length ≤ 5 ∧
      save_config_profiles ["a", "b", "c", "d", "e", "f"] "p" =
        ["p", "a", "b", "c", "d"] := by
  have h := save_config_profiles_spec ["a", "b", "c", "d", "e", "f"] "p"
  exact ⟨h.1, by rw [h.2 (by decide) (by decide)]; rfl⟩

/-! C1 -/

/-- C1: every mutating writer call is atomic: it either fully commits — the
file replaced by the edited content with a timestamped backup of the
pre-edit file written alongside — or leaves the disk exactly as it was; in
particular a failed validation or a failed backup write leaves the original
untouched. -/
theorem writer_call_atomic (c : WriterCall) (d : Disk) (ts : Nat)
    (validOk backupOk : Bool) :
    ((runWriterCall c d ts validOk backupOk).1 = d ∨
      ((runWriterCall c d ts validOk backupOk).2 = true ∧
        (runWriterCall c d ts validOk backupOk).1.file = applyCall c d.file ∧
        (runWriterCall c d ts validOk backupOk).1.backups =
          (ts, d.file) :: d.backups)) ∧
    (validOk = false ∨ backupOk = false →
      (runWriterCall c d ts validOk backupOk).1 = d) := by
  unfold runWriterCall commitEdit
  cases validOk <;> cases backupOk <;> cases h : isDryRun c <;> simp

theorem writer_call_atomic_witness :
    (runWriterCall (.addGroupsC [[['A']]] false) ⟨⟨[], []⟩, []⟩ 7 false true).1 =
      ⟨⟨[], []⟩, []⟩ :=
  (writer_call_atomic (.addGroupsC [[['A']]] false) ⟨⟨[], []⟩, []⟩ 7 false
    true).2 (Or.inl rfl)

/-! C2 -/

/-- C2 counterexample: on a failed load, `run_scrape` shows no error — its
trace is the bare load call — refuting the claim that every read path shows
an error when `load()` returns failure. -/
theorem run_scrape_shows_no_error_on_failure :
    GuiEv.showError ∉ runScrapeLoadTrace false ∧
      runScrapeLoadTrace false = [GuiEv.loadCall] := by
  constructor <;> decide

/-- C2 (amended): every GUI read path calls `parse_items`/`parse_groups`
only after `load()` has returned success; `load_tsm_info` and
`_do_refresh_groups_panel` show an error and call no parse method on
failure, while `run_scrape` and `get_user_groups_list` call no parse method
but show no error on failure. -/
theorem gui_read_paths_check_load (loadOk : Bool) :
    ((GuiEv.parseItemsCall ∈ loadTsmInfoTrace loadOk ∨
        GuiEv.parseGroupsCall ∈ loadTsmInfoTrace loadOk) → loadOk = true) ∧
    ((GuiEv.parseItemsCall ∈ doRefreshGroupsPanelTrace loadOk ∨
        GuiEv.parseGroupsCall ∈ doRefreshGroupsPanelTrace loadOk) →
      loadOk = true) ∧
    ((GuiEv.parseItemsCall ∈ runScrapeLoadTrace loadOk ∨
        GuiEv.parseGroupsCall ∈ runScrapeLoadTrace loadOk) → loadOk = true) ∧
    ((GuiEv.parseItemsCall ∈ getUserGroupsListTrace loadOk ∨
        GuiEv.parseGroupsCall ∈ getUserGroupsListTrace loadOk) →
      loadOk = true) ∧
    loadTsmInfoTrace false = [.loadCall, .showError] ∧
    doRefreshGroupsPanelTrace false = [.loadCall, .showError] ∧
    runScrapeLoadTrace false = [.loadCall] ∧
    getUserGroupsListTrace false = [.loadCall] := by
  cases loadOk <;> refine ⟨?_, ?_, ?_, ?_, by decide, by decide, by decide, by decide⟩ <;> decide

theorem gui_read_paths_check_load_witness :
    loadTsmInfoTrace false = [.loadCall, .showError] ∧ true = true :=
  ⟨(gui_read_paths_check_load false).2.2.2.2.1,
   (gui_read_paths_check_load true).1 (Or.inl (by decide))⟩

/-! C6 -/

/-- C6: any sequence of GUI read-path traces — loading and parsing with no
mutating writer call — leaves the TSM file byte-identical to what it was. -/
theorem read_paths_preserve_file (f : TSMData) (ts : List (List GuiEv))
    (h : ∀ t ∈ ts, isReadTrace t) : runEvents f ts.flatten = f := by
  induction ts generalizing f with
  | nil => rfl
  | cons t rest ih =>
    rw [List.flatten_cons, runEvents_append,
      readTrace_id t (h t (List.mem_cons_self t rest)) f]
    exact ih f (fun u hu => h u (List.mem_cons_of_mem t hu))

theorem read_paths_preserve_file_witness :
    runEvents ⟨[[['A']]], [([['A']], 5)]⟩
      [loadTsmInfoTrace true, runScrapeLoadTrace false,
        getUserGroupsListTrace true, doRefreshGroupsPanelTrace false].flatten =
      ⟨[[['A']]], [([['A']], 5)]⟩ :=
  read_paths_preserve_file ⟨[[['A']]], [([['A']], 5)]⟩ _
    (by
      intro t ht
      simp only [List.mem_cons, List.not_mem_nil, or_false] at ht
      rcases ht with h1 | h1 | h1 | h1
      · exact ⟨true, Or.inl h1⟩
      · exact ⟨false, Or.inr (Or.inr (Or.inl h1))⟩
      · exact ⟨true, Or.inr (Or.inr (Or.inr h1))⟩
      · exact ⟨false, Or.inr (Or.inl h1)⟩)

/-! C4 -/

/-- C4: `add_groups` is idempotent per path: for a file not containing `p`,
`add_groups([p])` reports added=1, skipped=0 and appends `p`; a second call
with the same `p` reports added=0, skipped=1 and leaves the state unchanged;
`p` is never duplicated. -/
theorem add_groups_idempotent (st : TSMData) (p : List (List Char))
    (h : p ∉ st.groups) :
    add_groups st [p] = ({ st with groups := st.groups ++ [p] }, 1, 0) ∧
    add_groups (add_groups st [p]).1 [p] = ((add_groups st [p]).1, 0, 1) ∧
    (add_groups st [p]).1.groups.count p = 1 := by
  have h1 : add_groups st [p] = ({ st with groups := st.groups ++ [p] }, 1, 0) := by
    simp [add_groups, h]
  refine ⟨h1, ?_, ?_⟩
  · rw [h1]
    simp [add_groups]
  · rw [h1]
    simp [List.count_append, List.count_eq_zero_of_not_mem h]

theorem add_groups_idempotent_witness :
    add_groups ⟨[[['A']]], []⟩ [[['B']]] = (⟨[[['A']], [['B']]], []⟩, 1, 0) ∧
    add_groups ⟨[[['A']], [['B']]], []⟩ [[['B']]] =
      (⟨[[['A']], [['B']]], []⟩, 0, 1) ∧
    ([[['A']], [['B']]] : List (List (List Char))).count [['B']] = 1 :=
  add_groups_idempotent ⟨[[['A']]], []⟩ [['B']] (by decide)

/-! C3 helper lemmas. -/

theorem any_filter_ne (l : List (List (List Char) × Nat)) (a b : Nat)
    (h : a ≠ b) :
    (l.filter (fun e => e.2 != a)).any (fun e => e.2 == b) =
      l.any (fun e => e.2 == b) := by
  induction l with
  | nil => rfl
  | cons e t ih =>
    rcases eq_or_ne e.2 a with he | he
    · have heb : (e.2 == b) = false := by simp [he, h]
      have hfa : (e.2 != a) = false := by simp [he]
      simp only [List.filter_cons, hfa, Bool.false_eq_true, if_false,
        List.any_cons, heb, Bool.false_or]
      exact ih
    · have hfa : (e.2 != a) = true := by simp [he]
      simp only [List.filter_cons, hfa, if_true, List.any_cons, ih]

theorem hasItemId_removeItemId_ne (st : TSMData) (a b : Nat) (h : a ≠ b) :
    hasItemId (removeItemId st a) b = hasItemId st b :=
  any_filter_ne st.items a b h

theorem hasItemId_removeItemId_self (st : TSMData) (a : Nat) :
    hasItemId (removeItemId st a) a = false := by
  rw [hasItemId, removeItemId, List.any_eq_false]
  intro e he
  rw [List.mem_filter] at he
  simp only [bne_iff_ne, ne_eq] at he
  simp [he.2]

theorem hasItemId_remove_items_absent (st : TSMData) (l : List Nat) (b : Nat)
    (h : hasItemId st b = false) :
    hasItemId (remove_items st l).1 b = false := by
  induction l generalizing st with
  | nil => exact h
  | cons i t ih =>
    by_cases hi : hasItemId st i = true
    · have hb : hasItemId (removeItemId st i) b = false := by
        rcases eq_or_ne i b with rfl | hne
        · exact hasItemId_removeItemId_self st i
        · rw [hasItemId_removeItemId_ne st i b hne]
          exact h
      simpa [remove_items, hi] using ih (removeItemId st i) hb
    · simpa [remove_items, hi] using ih st h

theorem remove_items_all_present (st : TSMData) (ids : List Nat)
    (hnd : ids.Nodup) (hpres : ∀ i ∈ ids, hasItemId st i = true) :
    (remove_items st ids).2.1 = ids.length ∧
      (remove_items st ids).2.2 = 0 ∧
      ∀ i ∈ ids, hasItemId (remove_items st ids).1 i = false := by
  induction ids generalizing st with
  | nil => exact ⟨rfl, rfl, by simp⟩
  | cons i t ih =>
    have hi : hasItemId st i = true := hpres i (List.mem_cons_self i t)
    have hnd' := List.nodup_cons.mp hnd
    have hpres' : ∀ j ∈ t, hasItemId (removeItemId st i) j = true := by
      intro j hj
      have hji : i ≠ j := fun e => hnd'.1 (e ▸ hj)
      rw [hasItemId_removeItemId_ne st i j hji]
      exact hpres j (List.mem_cons_of_mem i hj)
    obtain ⟨h1, h2, h3⟩ := ih (removeItemId st i) hnd'.2 hpres'
    refine ⟨by simp [remove_items, hi, h1], by simp [remove_items, hi, h2], ?_⟩
    intro j hj
    rcases List.mem_cons.mp hj with rfl | hjt
    · have : hasItemId (removeItemId st j) j = false :=
        hasItemId_removeItemId_self st j
      simpa [remove_items, hi] using
        hasItemId_remove_items_absent (removeItemId st j) t j this
    · simpa [remove_items, hi] using h3 j hjt

theorem remove_items_all_absent (st : TSMData) (ids : List Nat)
    (habs : ∀ i ∈ ids, hasItemId st i = false) :
    remove_items st ids = (st, 0, ids.length) := by
  induction ids with
  | nil => rfl
  | cons i t ih =>
    have hi := habs i (List.mem_cons_self i t)
    simp [remove_items, hi,
      ih (fun j hj => habs j (List.mem_cons_of_mem i hj))]

/-! C3 -/

/-- C3: `remove_items` counts one `removed` per id found and one `not_found`
per id matching no existing entry; on a duplicate-free set of
previously-present ids it removes them all (removed = count, not_found = 0,
all ids absent afterwards), and a second call on the same ids reports
removed = 0 and not_found equal to the number of ids. -/
theorem remove_items_counts (st : TSMData) (ids : List Nat)
    (hnd : ids.Nodup) (hpres : ∀ i ∈ ids, hasItemId st i = true) :
    (remove_items st ids).2.1 = ids.length ∧
    (remove_items st ids).2.2 = 0 ∧
    (∀ i ∈ ids, hasItemId (remove_items st ids).1 i = false) ∧
    remove_items (remove_items st ids).1 ids =
      ((remove_items st ids).1, 0, ids.length) ∧
    (∀ (st0 : TSMData) (j : Nat) (rest : List Nat),
      hasItemId st0 j = false →
      (remove_items st0 (j :: rest)).2.2 = (remove_items st0 rest).2.2 + 1) := by
  obtain ⟨h1, h2, h3⟩ := remove_items_all_present st ids hnd hpres
  refine ⟨h1, h2, h3, remove_items_all_absent _ ids h3, ?_⟩
  intro st0 j rest hj
  simp [remove_items, hj]

theorem remove_items_counts_witness :
    (remove_items ⟨[[['G']]], [([['G']], 1), ([['G']], 2)]⟩ [1, 2]).2.1 = 2 ∧
    (remove_items ⟨[[['G']]], [([['G']], 1), ([['G']], 2)]⟩ [1, 2]).2.2 = 0 := by
  have h := remove_items_counts ⟨[[['G']]], [([['G']], 1), ([['G']], 2)]⟩
    [1, 2] (by decide) (by decide)
  exact ⟨h.1, h.2.1⟩

/-! C8 -/

/-- C8: with the fresh load at the start of `run_scrape` succeeding, every
category's recorded `new_ids` is exactly the scraped ids not in the fresh
existing-id set, in scraped order (an order-preserving sublist), so no id
already present in the file is offered for import. -/
theorem run_scrape_new_ids (loadOk : Bool) (freshIds staleIds : List Nat)
    (cats : List (List Char × List Nat)) (h : loadOk = true) :
    scrapeResults (scrapeExistingIds loadOk freshIds staleIds) cats =
      cats.map (fun c => (c.1, c.2.length, scrapeNewIds freshIds c.2)) ∧
    (∀ c ∈ cats, (scrapeNewIds freshIds c.2).Sublist c.2) ∧
    (∀ c ∈ cats, ∀ i ∈ scrapeNewIds freshIds c.2, i ∈ c.2 ∧ i ∉ freshIds) := by
  subst h
  refine ⟨rfl, fun c _ => List.filter_sublist c.2, ?_⟩
  intro c _ i hi
  rw [scrapeNewIds, List.mem_filter] at hi
  refine ⟨hi.1, ?_⟩
  simpa using hi.2

theorem run_scrape_new_ids_witness :
    scrapeResults (scrapeExistingIds true [5] [9]) [(['W'], [4, 5, 6])] =
      [(['W'], 3, [4, 6])] := by
  have h := run_scrape_new_ids true [5] [9] [(['W'], [4, 5, 6])] rfl
  rw [h.1]
  rfl

/-! C9 helper lemmas. -/

theorem pasteStep_nodup (mode : Bool) (st : ManualState) (tok : List Char)
    (h1 : st.addIds.Nodup) (h2 : st.removeIds.Nodup) :
    (pasteStep mode st tok).addIds.Nodup ∧
      (pasteStep mode st tok).removeIds.Nodup := by
  unfold pasteStep
  split
  · exact ⟨h1, h2⟩
  · split
    · exact ⟨h1, h2⟩
    · split
      · split
        · exact ⟨h1, h2⟩
        · next hmem => exact ⟨h1, nodup_append_one h2 hmem⟩
      · split
        · exact ⟨h1, h2⟩
        · next hmem => exact ⟨nodup_append_one h1 hmem, h2⟩

theorem foldl_pasteStep_nodup (mode : Bool) (toks : List (List Char))
    (st : ManualState) (h1 : st.addIds.Nodup) (h2 : st.removeIds.Nodup) :
    (toks.foldl (pasteStep mode) st).addIds.Nodup ∧
      (toks.foldl (pasteStep mode) st).removeIds.Nodup := by
  induction toks generalizing st with
  | nil => exact ⟨h1, h2⟩
  | cons tk tt ih =>
    have h := pasteStep_nodup mode st tk h1 h2
    exact ih (pasteStep mode st tk) h.1 h.2

theorem add_manual_id_nodup (mode : Bool) (st : ManualState) (txt : List Char)
    (h1 : st.addIds.Nodup) (h2 : st.removeIds.Nodup) :
    (add_manual_id st mode txt).1.addIds.Nodup ∧
      (add_manual_id st mode txt).1.removeIds.Nodup := by
  unfold add_manual_id
  split
  · exact ⟨h1, h2⟩
  · split
    · exact ⟨h1, h2⟩
    · split
      · split
        · exact ⟨h1, h2⟩
        · next hmem => exact ⟨h1, nodup_append_one h2 hmem⟩
      · split
        · exact ⟨h1, h2⟩
        · next hmem => exact ⟨nodup_append_one h1 hmem, h2⟩

theorem add_manual_id_invalid (st : ManualState) (mode : Bool)
    (txt : List Char) (h : pyParseInt (pyStrip txt) = none) :
    (add_manual_id st mode txt).1 = st := by
  unfold add_manual_id
  split
  · rfl
  · rw [h]

theorem pasteStep_invalid (st : ManualState) (mode : Bool) (tok : List Char)
    (h : pyParseInt (pyStrip tok) = none) : pasteStep mode st tok = st := by
  unfold pasteStep
  split
  · rfl
  · rw [h]

/-! C9 -/

/-- C9: the manual id lists never acquire a duplicate — `add_manual_id` and
`paste_id_list` append an id only when absent from the target list, so
duplicate-freeness is preserved — and input failing integer parsing is
rejected without modifying either list. -/
theorem manual_id_lists_invariant (st : ManualState) (mode : Bool)
    (txt : List Char) (h1 : st.addIds.Nodup) (h2 : st.removeIds.Nodup) :
    ((add_manual_id st mode txt).1.addIds.Nodup ∧
      (add_manual_id st mode txt).1.removeIds.Nodup) ∧
    (pyParseInt (pyStrip txt) = none → (add_manual_id st mode txt).1 = st) ∧
    ((paste_id_list st mode txt).addIds.Nodup ∧
      (paste_id_list st mode txt).removeIds.Nodup) ∧
    (∀ (st0 : ManualState) (tok : List Char),
      pyParseInt (pyStrip tok) = none → pasteStep mode st0 tok = st0) :=
  ⟨add_manual_id_nodup mode st txt h1 h2,
   add_manual_id_invalid st mode txt,
   foldl_pasteStep_nodup mode (splitAny isSepChar (pyStrip txt)) st h1 h2,
   fun st0 tok => pasteStep_invalid st0 mode tok⟩

theorem manual_id_lists_invariant_witness :
    (add_manual_id ⟨[3], [4]⟩ false ['x']).1 = ⟨[3], [4]⟩ ∧
    (paste_id_list ⟨[3], [4]⟩ false ['1', ',', '1']).addIds.Nodup := by
  have h := manual_id_lists_invariant ⟨[3], [4]⟩ false ['x']
    (by decide) (by decide)
  have h2 := manual_id_lists_invariant ⟨[3], [4]⟩ false ['1', ',', '1']
    (by decide) (by decide)
  exact ⟨h.2.1 (by decide), h2.2.2.1.1⟩

/-! C5 helper lemmas: splitting and rendering paths. -/

theorem pySplitOn_ne_nil (d : Char) (l : List Char) : pySplitOn d l ≠ [] := by
  cases l with
  | nil => simp [pySplitOn]
  | cons c rest =>
    rw [pySplitOn]
    cases pySplitOn d rest with
    | nil => simp
    | cons t ts => by_cases h : c = d <;> simp [h]

theorem pySplitOn_append_delim (d : Char) (a b : List Char) :
    pySplitOn d (a ++ d :: b) = pySplitOn d a ++ pySplitOn d b := by
  induction a with
  | nil =>
    rw [List.nil_append]
    cases hsb : pySplitOn d b with
    | nil => exact absurd hsb (pySplitOn_ne_nil d b)
    | cons t ts =>
      simp only [pySplitOn, hsb]
      simp
  | cons x a' ih =>
    simp only [List.cons_append, pySplitOn, List.append_eq]
    rw [ih]
    cases hsa : pySplitOn d a' with
    | nil => exact absurd hsa (pySplitOn_ne_nil d a')
    | cons t ts => by_cases h : x = d <;> simp [h]

theorem pySplitOn_no_delim (d : Char) (s : List Char) (h : d ∉ s) :
    pySplitOn d s = [s] := by
  induction s with
  | nil => rfl
  | cons c rest ih =>
    have hc : ¬ c = d := fun e => h (e ▸ List.mem_cons_self c rest)
    have hr : d ∉ rest := fun e => h (List.mem_cons_of_mem c e)
    rw [pySplitOn, ih hr]
    simp [hc]

theorem renderPath_cons (s : List Char) (rest : List (List Char))
    (h : rest ≠ []) : renderPath (s :: rest) = s ++ delim :: renderPath rest := by
  cases rest with
  | nil => exact absurd rfl h
  | cons y t => rfl

theorem pySplitOn_renderPath (segs : List (List Char)) (h : segs ≠ [])
    (hf : ∀ s ∈ segs, delim ∉ s) :
    pySplitOn delim (renderPath segs) = segs := by
  induction segs with
  | nil => exact absurd rfl h
  | cons s rest ih =>
    cases rest with
    | nil => exact pySplitOn_no_delim delim s (hf s (List.mem_cons_self s []))
    | cons y t =>
      rw [renderPath_cons s (y :: t) (by simp), pySplitOn_append_delim,
        pySplitOn_no_delim delim s (hf s (List.mem_cons_self s (y :: t))),
        ih (by simp) (fun u hu => hf u (List.mem_cons_of_mem s hu))]
      rfl

theorem renderPath_concat (a : List (List Char)) (x : List Char) (h : a ≠ []) :
    renderPath (a ++ [x]) = renderPath a ++ delim :: x := by
  induction a with
  | nil => exact absurd rfl h
  | cons s rest ih =>
    cases rest with
    | nil => simp [renderPath]
    | cons y t =>
      rw [List.cons_append, renderPath_cons s ((y :: t) ++ [x]) (by simp),
        renderPath_cons s (y :: t) (by simp), ih (by simp)]
      simp

theorem buildRenamePath_replaces_last (segs : List (List Char))
    (nm : List Char) (h : segs ≠ []) (hf : ∀ s ∈ segs, delim ∉ s) :
    buildRenamePath (renderPath segs) nm =
      renderPath (segs.dropLast ++ [nm]) := by
  cases segs with
  | nil => exact absurd rfl h
  | cons s rest =>
    cases rest with
    | nil =>
      rw [buildRenamePath, pySplitOn_renderPath [s] h hf]
      simp [renderPath]
    | cons y t =>
      rw [buildRenamePath, pySplitOn_renderPath (s :: y :: t) h hf]
      have hlen : (s :: y :: t).length > 1 := by simp
      rw [if_pos hlen,
        renderPath_concat (s :: y :: t).dropLast nm (by simp)]

/-! C5 -/

/-- C5: `rename_group` rewrites the group's own entry and exactly those
entries having `old` as a segment-aligned prefix, replacing that prefix with
`new` and preserving the remaining suffix segments exactly; entries without
that segment-aligned prefix — even ones whose rendered path has the rendered
`old` as a raw string prefix — are untouched; and the rename dialog builds
the new path by replacing only the last segment of the old path, keeping the
parent prefix. -/
theorem rename_group_spec (old new : List (List Char)) (st : TSMData) :
    (rename_group st old new).1.groups =
      st.groups.map (renamePathEntry old new) ∧
    (∀ p : List (List Char),
      renamePathEntry old new p ≠ p → old.isPrefixOf p = true) ∧
    (∀ suffix : List (List Char),
      renamePathEntry old new (old ++ suffix) = new ++ suffix) ∧
    (∀ p : List (List Char),
      old.isPrefixOf p = false → renamePathEntry old new p = p) ∧
    (∀ (segs : List (List Char)) (nm : List Char), segs ≠ [] →
      (∀ s ∈ segs, delim ∉ s) →
      buildRenamePath (renderPath segs) nm =
        renderPath (segs.dropLast ++ [nm])) := by
  refine ⟨rfl, ?_, ?_, ?_, fun segs nm h hf => buildRenamePath_replaces_last segs nm h hf⟩
  · intro p hne
    by_cases h : old.isPrefixOf p = true
    · exact h
    · exact absurd (by simp [renamePathEntry, h]) hne
  · intro suffix
    simp [renamePathEntry, isPrefixOf_append_self]
  · intro p h
    simp [renamePathEntry, h]

theorem rename_group_spec_witness :
    (rename_group ⟨[[['A']], [['A'], ['C']], [['A', '2']]], []⟩
        [['A']] [['G']]).1.groups =
      [[['G']], [['G'], ['C']], [['A', '2']]] ∧
    buildRenamePath (renderPath [['A'], ['C']]) ['G'] =
      renderPath [['A'], ['G']] := by
  have h := rename_group_spec [['A']] [['G']]
    ⟨[[['A']], [['A'], ['C']], [['A', '2']]], []⟩
  constructor
  · rw [h.1]
    decide
  · have h5 := h.2.2.2.2 [['A'], ['C']] ['G'] (by decide) (by decide)
    rw [h5]
    decide

/-! C7 helper lemmas: the lowercase lexicographic order. -/

theorem strLe_append_cancel (p a b : List Char) :
    strLe (p ++ a) (p ++ b) = strLe a b := by
  induction p with
  | nil => rfl
  | cons c q ih => simp [strLe, ih]

theorem lowerLe_append_cancel (q a b : List Char) :
    lowerLe (q ++ a) (q ++ b) ↔ lowerLe a b := by
  unfold lowerLe pyLower
  rw [List.map_append, List.map_append, strLe_append_cancel]

theorem strLe_total (a : List Char) : ∀ b, strLe a b = true ∨ strLe b a = true := by
  induction a with
  | nil => exact fun b => Or.inl rfl
  | cons x xs ih =>
    intro b
    cases b with
    | nil => exact Or.inr rfl
    | cons y ys =>
      rcases Nat.lt_trichotomy x.toNat y.toNat with h | h | h
      · left
        simp [strLe, h]
      · have hxy : ¬ x.toNat < y.toNat := by omega
        have hyx : ¬ y.toNat < x.toNat := by omega
        rcases ih ys with h1 | h1
        · left
          simp [strLe, hxy, hyx, h1]
        · right
          simp [strLe, hxy, hyx, h1]
      · right
        simp [strLe, h]

theorem strLe_trans (a : List Char) :
    ∀ b c, strLe a b = true → strLe b c = true → strLe a c = true := by
  induction a with
  | nil => exact fun b c _ _ => rfl
  | cons x xs ih =>
    intro b c h1 h2
    cases b with
    | nil => simp [strLe] at h1
    | cons y ys =>
      cases c with
      | nil => simp [strLe] at h2
      | cons z zs =>
        rw [strLe] at h1 h2 ⊢
        by_cases hxy : x.toNat < y.toNat
        · by_cases hyz : y.toNat < z.toNat
          · simp [show x.toNat < z.toNat by omega]
          · by_cases hzy : z.toNat < y.toNat
            · simp [hyz, hzy] at h2
            · simp [show x.toNat < z.toNat by omega]
        · by_cases hyx : y.toNat < x.toNat
          · simp [hxy, hyx] at h1
          · by_cases hyz : y.toNat < z.toNat
            · simp [show x.toNat < z.toNat by omega]
            · by_cases hzy : z.toNat < y.toNat
              · simp [hyz, hzy] at h2
              · have hxz : ¬ x.toNat < z.toNat := by omega
                have hzx : ¬ z.toNat < x.toNat := by omega
                simp only [hxy, hyx, if_false] at h1
                simp only [hyz, hzy, if_false] at h2
                simp only [hxz, hzx, if_false]
                exact ih ys zs h1 h2

theorem orderedInsert_map (q a : List Char) (l : List (List Char)) :
    List.orderedInsert lowerLe (q ++ a) (l.map (fun s => q ++ s)) =
      (List.orderedInsert lowerLe a l).map (fun s => q ++ s) := by
  induction l with
  | nil => rfl
  | cons b t ih =>
    by_cases h : lowerLe a b
    · rw [List.map_cons, List.orderedInsert,
        if_pos ((lowerLe_append_cancel q a b).mpr h), List.orderedInsert,
        if_pos h, List.map_cons, List.map_cons]
    · rw [List.map_cons, List.orderedInsert,
        if_neg (fun hc => h ((lowerLe_append_cancel q a b).mp hc)),
        List.orderedInsert, if_neg h, List.map_cons, ih]

theorem insertionSort_map (q : List Char) (l : List (List Char)) :
    List.insertionSort lowerLe (l.map (fun s => q ++ s)) =
      (List.insertionSort lowerLe l).map (fun s => q ++ s) := by
  induction l with
  | nil => rfl
  | cons b t ih =>
    rw [List.map_cons, List.insertionSort, ih, List.insertionSort,
      orderedInsert_map]

/-! C7 -/

/-- C7: sorting full sibling path strings by their lowercased form — as the
groups panel does — equals sorting the siblings by their last segment
lowercased and re-attaching the shared parent-prefix-plus-delimiter (`q`
covers both a parent prefix and the empty root prefix); the result is
sorted in the case-insensitive order, and the displayed last segment of a
child `parent ++ delim :: s` with delimiter-free `s` is `s` itself. -/
theorem children_sorted_spec (q : List Char) (segs : List (List Char)) :
    sortChildren (segs.map (fun s => q ++ s)) =
      (sortChildren segs).map (fun s => q ++ s) ∧
    List.Sorted lowerLe (sortChildren segs) ∧
    (∀ (parent s : List Char), delim ∉ s →
      lastSegment (parent ++ delim :: s) = some s) := by
  refine ⟨insertionSort_map q segs, ?_, ?_⟩
  · haveI : IsTotal (List Char) lowerLe :=
      ⟨fun a b => strLe_total (pyLower a) (pyLower b)⟩
    haveI : IsTrans (List Char) lowerLe :=
      ⟨fun a b c => strLe_trans (pyLower a) (pyLower b) (pyLower c)⟩
    exact List.sorted_insertionSort lowerLe segs
  · intro parent s hs
    rw [lastSegment, pySplitOn_append_delim, pySplitOn_no_delim delim s hs,
      List.getLast?_concat]

theorem children_sorted_spec_witness :
    sortChildren [['b'], ['A'], ['a']] = [['A'], ['a'], ['b']] ∧
      lastSegment (['P'] ++ delim :: ['c']) = some ['c'] := by
  have h := children_sorted_spec [] [['b'], ['A'], ['a']]
  exact ⟨by decide, h.2.2 ['P'] ['c'] (by decide)⟩

end TSM
